import Mathlib

/-!
Verification of the push-based streaming engine of the tinyflow repository
(file `tinyflow/coro.py`).

The engine is a chain of primed coroutines.  Each transform, given a
downstream coroutine `target`, returns a primed coroutine that accepts
items via `send` and reacts to `close` (a `GeneratorExit` raised at its
current `yield`).  We embed one activation of such a coroutine as a state
machine `Recv`:

* `init`  — the state right after priming;
* `push`  — the effect of `send(item)`: next state plus the list of items
  the coroutine passes to `target.send` during that activation;
* `close` — the effect of `close()`: the items flushed into the downstream
  by the `GeneratorExit` handler, and whether the handler also calls
  `target.close()` (stage coroutines without a `GeneratorExit` handler
  simply terminate: they flush nothing and do not close their target).
-/

namespace Tinyflow

universe u v w

/-- One activation of a primed coroutine receiver: input items of type `α`,
items forwarded downstream of type `β`, internal state `σ`. -/
structure Recv (α : Type u) (β : Type v) (σ : Type w) where
  init : σ
  push : σ → α → σ × List β
  close : σ → List β × Bool

/-- Send a whole list of items, one `send` at a time, collecting everything
forwarded downstream. -/
def Recv.pushAll (r : Recv α β σ) : σ → List α → σ × List β
  | s, [] => (s, [])
  | s, a :: rest =>
    let p := r.push s a
    let q := r.pushAll p.1 rest
    (q.1, p.2 ++ q.2)

/-- `CoroPipeline.__call__`: drive a finite stream into a primed receiver,
then issue exactly one `close`.  Result: all items the receiver forwarded
downstream, and whether the receiver closed its downstream. -/
def Recv.run (r : Recv α β σ) (xs : List α) : List β × Bool :=
  let p := r.pushAll r.init xs
  let c := r.close p.1
  (p.2 ++ c.1, c.2)

/-- Plumbing one receiver into another, as `trans(target)` does: items the
first coroutine sends are received synchronously by the second.  When the
first is closed, its flush is pushed through the second, and the second is
closed exactly when the first calls `target.close()`. -/
def Recv.comp (r1 : Recv α β σ₁) (r2 : Recv β γ σ₂) : Recv α γ (σ₁ × σ₂) where
  init := (r1.init, r2.init)
  push := fun s a =>
    let p := r1.push s.1 a
    let q := r2.pushAll s.2 p.2
    ((p.1, q.1), q.2)
  close := fun s =>
    let c := r1.close s.1
    let q := r2.pushAll s.2 c.1
    if c.2 then
      let d := r2.close q.1
      (q.2 ++ d.1, d.2)
    else (q.2, false)

/-- The boundary between the transform chain and the sink.  Items that
reach it are exactly the items the sink receives; if a `close` reaches it,
the sink has been closed.  For an empty transform list the orchestrator
holds the sink itself and closes it directly, which is this receiver run
on its own. -/
def sinkBoundary : Recv α α Unit where
  init := ()
  push := fun _ a => ((), [a])
  close := fun _ => ([], true)

/-- A receiver with its state type packaged up, so chains of transforms
over a common item type can be put in one list. -/
structure SomeRecv (α : Type u) : Type (u + 1) where
  σ : Type u
  r : Recv α α σ

/-- Package `Recv.comp` on packaged receivers. -/
def SomeRecv.comp (x y : SomeRecv α) : SomeRecv α :=
  ⟨x.σ × y.σ, x.r.comp y.r⟩

/-! ## The concrete stages of `tinyflow/coro.py` -/

/-- `Map.__call__`: per received item, send `func(data)` downstream.  No
`GeneratorExit` handler, so closing it neither flushes nor closes the
target. -/
def Map.call (func : α → β) : Recv α β Unit where
  init := ()
  push := fun _ data => ((), [func data])
  close := fun _ => ([], false)

/-- `FlatMap.__call__`: per received item, send every element of
`func(data)` downstream, in order. -/
def FlatMap.call (func : α → List β) : Recv α β Unit where
  init := ()
  push := fun _ data => ((), func data)
  close := fun _ => ([], false)

/-- `Filter.__call__`: forward `data` only when `func(data)` is truthy. -/
def Filter.call (func : α → Bool) : Recv α α Unit where
  init := ()
  push := fun _ data => ((), if func data then [data] else [])
  close := fun _ => ([], false)

/-- `FilterFalse.__call__`: forward `data` only when `func(data)` is
falsy. -/
def FilterFalse.call (func : α → Bool) : Recv α α Unit where
  init := ()
  push := fun _ data => ((), if func data then [] else [data])
  close := fun _ => ([], false)

/-- `Sort.__call__`: buffer every received item in the list `out`; on
`GeneratorExit`, send `sorted(out, **kwargs)` downstream and then close the
target.  Python `sorted` with a key and reverse flag is a stable merge
sort under the induced comparison, embedded here as `List.mergeSort le`. -/
def SortStage.call (le : α → α → Bool) : Recv α α (List α) where
  init := []
  push := fun out data => (out ++ [data], [])
  close := fun out => (out.mergeSort le, true)

/-! ### ReduceByKey -/

/-- `ReduceByKey.wrap`: the per-key accumulator coroutine.  Its state is
the accumulated value `a` (absent until the first `send`).  The first
value is taken verbatim; each later value `b` updates `a` to
`func(key, a, b)`.  On `GeneratorExit` it sends `(key, a)` downstream and,
per the source comment, does not close the target.  (If it is closed
before receiving any value, the exception is raised at the initial
`a = yield`, outside the handler, and nothing is sent.) -/
def ReduceByKey.wrap (key : κ) (func : κ → ν → ν → ν) : Recv ν (κ × ν) (Option ν) where
  init := none
  push := fun s b =>
    match s with
    | none => (some b, [])
    | some a => (some (func key a b), [])
  close := fun s =>
    match s with
    | some a => ([(key, a)], false)
    | none => ([], false)

/-- Find the stored accumulator state for a key in the keymap
(`keymap.get(key)`). -/
def ReduceByKey.find [DecidableEq κ] (km : List (κ × Option ν)) (key : κ) : Option (Option ν) :=
  match km with
  | [] => none
  | (k, s) :: rest => if k = key then some s else ReduceByKey.find rest key

/-- Replace the stored accumulator state for a key, keeping the position
of the entry, as assigning through a Python dict does. -/
def ReduceByKey.store [DecidableEq κ] (km : List (κ × Option ν)) (key : κ) (s : Option ν) :
    List (κ × Option ν) :=
  match km with
  | [] => []
  | (k, t) :: rest =>
    if k = key then (k, s) :: rest else (k, t) :: ReduceByKey.store rest key s

/-- `ReduceByKey.__call__`: the dispatcher coroutine.  Its state is the
keymap, an insertion-ordered association from key to the state of that
key's `wrap` accumulator.  Per received `(key, value)` pair it routes
`value` into the existing accumulator, or creates, primes and feeds a new
one, appending it to the keymap; nothing is forwarded downstream while
active.  On `GeneratorExit` it pops keymap entries with `popitem` — last
inserted first — closing each accumulator (which flushes its pair), and
finally calls `target.close()`. -/
def ReduceByKey.call [DecidableEq κ] (func : κ → ν → ν → ν) :
    Recv (κ × ν) (κ × ν) (List (κ × Option ν)) where
  init := []
  push := fun km kv =>
    match ReduceByKey.find km kv.1 with
    | some s => (ReduceByKey.store km kv.1 ((ReduceByKey.wrap kv.1 func).push s kv.2).1, [])
    | none =>
      (km ++ [(kv.1, ((ReduceByKey.wrap kv.1 func).push (ReduceByKey.wrap kv.1 func).init kv.2).1)],
        [])
  close := fun km =>
    ((km.reverse.map fun e => ((ReduceByKey.wrap e.1 func).close e.2).1).flatten, true)

/-! ### Sample -/

/-- The selected indices `range(start, stop, step)` that `Sample`
materialises lazily.  (Python raises `ValueError` for `step = 0`; that
branch is modelled as empty and is not used by any claim.) -/
def rangeList (start stop step : Int) : List Int :=
  if 0 < step then
    (List.range ((stop - start + step - 1) / step).toNat).map fun i => start + step * i
  else if step < 0 then
    (List.range ((start - stop - step - 1) / (-step)).toNat).map fun i => start + step * i
  else []

/-- `Sample.__call__`: state is the not-yet-consumed part of the
`matches` iterator together with the running index `idx`.  Every received
item calls `next(matches)` — raising out of the coroutine when the range
is exhausted, which `send` surfaces to the caller as an error — and
forwards the item only when the drawn match equals the current index. -/
def Sample.push (s : List Int × Int) (data : α) :
    Except Unit ((List Int × Int) × List α) :=
  match s.1 with
  | [] => Except.error ()
  | m :: rest => Except.ok ((rest, s.2 + 1), if m = s.2 then [data] else [])

/-- Drive a stream through a `Sample(start, stop, step)` receiver,
stopping with the error if any `send` raises. -/
def Sample.runFrom (s : List Int × Int) : List α → Except Unit (List α)
  | [] => Except.ok []
  | a :: rest =>
    match Sample.push s a with
    | Except.error e => Except.error e
    | Except.ok p =>
      match Sample.runFrom p.1 rest with
      | Except.error e => Except.error e
      | Except.ok out => Except.ok (p.2 ++ out)

/-- Run `Sample(start, stop, step)` over a finite stream from its primed
state: `matches = iter(range(start, stop, step))`, `idx = 0`. -/
def Sample.run (start stop step : Int) (xs : List α) : Except Unit (List α) :=
  Sample.runFrom (rangeList start stop step, 0) xs

/-- Modelled from the spec and from the docstring of `Sample` ("Like
`list[start:stop:step]`"): keep exactly the items whose zero-based index
lies in `range(start, stop, step)`. -/
def sliceSpec (start stop step : Int) (xs : List α) : List α :=
  (xs.enum.filter fun p => decide ((p.1 : Int) ∈ rangeList start stop step)).map fun p => p.2

/-! ## Observers for the ReduceByKey statements -/

/-- Accumulate a key into a first-seen-ordered list of distinct keys. -/
def seenStep [DecidableEq κ] (acc : List κ) (kv : κ × ν) : List κ :=
  if kv.1 ∈ acc then acc else acc ++ [kv.1]

/-- The distinct keys of a stream, in first-seen order. -/
def firstSeen [DecidableEq κ] (xs : List (κ × ν)) : List κ :=
  xs.foldl seenStep []

/-- The values carried by one key, in arrival order. -/
def valuesOf [DecidableEq κ] (key : κ) (xs : List (κ × ν)) : List ν :=
  (xs.filter fun kv => decide (kv.1 = key)).map Prod.snd

/-- The left fold the spec prescribes per key: the first value verbatim,
then `combine(key, accumulated, v)` for each later value. -/
def leftFold (func : κ → ν → ν → ν) (key : κ) : List ν → Option ν
  | [] => none
  | v :: rest => some (rest.foldl (func key) v)

/-- The keymap a `ReduceByKey` dispatcher holds after a stream: one entry
per distinct key in first-seen order, carrying that key's fold. -/
def rbkTable [DecidableEq κ] (func : κ → ν → ν → ν) (xs : List (κ × ν)) :
    List (κ × Option ν) :=
  (firstSeen xs).map fun k => (k, leftFold func k (valuesOf k xs))

/-! ## Chains of transforms over one item type

A syntax for the error-free transforms over a common item type `α`, so
chain-level statements can quantify over chains. -/

/-- The transforms of `tinyflow/coro.py` usable in a homogeneous chain. -/
inductive Stage (α : Type u) : Type u where
  | map (func : α → α)
  | flatMap (func : α → List α)
  | filter (func : α → Bool)
  | filterFalse (func : α → Bool)
  | sort (le : α → α → Bool)

/-- The receiver produced by binding a stage to a downstream, i.e. its
`__call__`. -/
def Stage.toRecv : Stage α → SomeRecv α
  | .map func => ⟨Unit, Map.call func⟩
  | .flatMap func => ⟨Unit, FlatMap.call func⟩
  | .filter func => ⟨Unit, Filter.call func⟩
  | .filterFalse func => ⟨Unit, FilterFalse.call func⟩
  | .sort le => ⟨List α, SortStage.call le⟩

/-- Whether the coroutine of this stage has a `GeneratorExit` handler that
calls `target.close()` on its downstream. -/
def Stage.closesDownstream : Stage α → Bool
  | .sort _ => true
  | _ => false

/-- The stages with no internal state, whose close handler is absent. -/
def Stage.stateless : Stage α → Bool
  | .map _ => true
  | .flatMap _ => true
  | .filter _ => true
  | .filterFalse _ => true
  | .sort _ => false

/-- The composed receiver `CoroPipeline.__call__` builds: the sink is the
structural base, and each transform, taken from last to first, is bound to
the receiver built so far. -/
def pipelineRecv (ts : List (Stage α)) : SomeRecv α :=
  (ts.map Stage.toRecv).foldr SomeRecv.comp ⟨Unit, sinkBoundary⟩

/-- Drive a stream through a chain of stages and issue the single closing
`close` on the head, as `CoroPipeline.__call__` does.  Result: the items
the sink received, and whether the sink was closed. -/
def runPipeline (ts : List (Stage α)) (xs : List α) : List α × Bool :=
  (pipelineRecv ts).r.run xs

/-! ## The chain orchestrator object -/

/-- The errors of the orchestrator surface: `NotACoroTransform` raised by
`CoroPipeline.__or__`, `NotImplementedError` raised by the abstract
`CoroTransform.__call__`, and a catch-all for invoking an object that is
no transform at all (not reachable through the public surface). -/
inductive CoroErr : Type where
  | notACoroTransform
  | notImplementedErr
  | notCallable
deriving DecidableEq

/-- An object handed to `CoroPipeline.__or__`: a concrete transform, a
bare `CoroTransform()` instance, or something that is not a
`CoroTransform` at all. -/
inductive CoroObj (α : Type u) : Type u where
  | transform (t : Stage α)
  | bareTransform
  | notTransform (tag : Nat)

/-- The `isinstance(other, CoroTransform)` test of `__or__`. -/
def CoroObj.isCoroTransform : CoroObj α → Bool
  | .notTransform _ => false
  | _ => true

/-- `CoroPipeline`: the chain object, holding its transform list.  (The
sink is modelled by the `sinkBoundary` receiver at run time.) -/
structure CoroPipeline (α : Type u) : Type u where
  transforms : List (CoroObj α)

/-- `CoroPipeline.__or__` (also bound as `__ior__`): first the isinstance
check, raising `NotACoroTransform` and leaving the object untouched when
it fails; only then `self.transforms.append(other)` and return `self`.
The result is the chain state after the call plus the exception, if one
was raised. -/
def CoroPipeline.orOp (p : CoroPipeline α) (other : CoroObj α) :
    CoroPipeline α × Option CoroErr :=
  match other.isCoroTransform with
  | false => (p, some CoroErr.notACoroTransform)
  | true => (⟨p.transforms ++ [other]⟩, none)

/-- Invoking `trans(target)` on an object held in the transform list: a
concrete transform yields its receiver, a bare `CoroTransform` raises
`NotImplementedError` from the abstract `__call__`. -/
def CoroObj.bindRecv : CoroObj α → Except CoroErr (SomeRecv α)
  | .transform t => Except.ok t.toRecv
  | .bareTransform => Except.error CoroErr.notImplementedErr
  | .notTransform _ => Except.error CoroErr.notCallable

/-- The build loop of `CoroPipeline.__call__`: `target = self.sink`, then
`for trans in reversed(self.transforms): target = trans(target)`.  The
last transform is bound first, so the first exception raised is that of
the transform closest to the sink. -/
def buildChain : List (CoroObj α) → Except CoroErr (SomeRecv α)
  | [] => Except.ok ⟨Unit, sinkBoundary⟩
  | t :: rest =>
    match buildChain rest with
    | Except.error e => Except.error e
    | Except.ok tail =>
      match t.bindRecv with
      | Except.error e => Except.error e
      | Except.ok s => Except.ok (SomeRecv.comp s tail)

/-- `CoroPipeline.__call__` on the chain object: build the composed
receiver (any exception surfaces before an item of the stream is
consumed), then drive the stream and close the head once. -/
def CoroPipeline.execute (p : CoroPipeline α) (xs : List α) :
    Except CoroErr (List α × Bool) :=
  match buildChain p.transforms with
  | Except.error e => Except.error e
  | Except.ok c => Except.ok (c.r.run xs)

/-! ## Repeated execution on one chain object

`self.sink` is created once, in `__init__`, and `__call__` only reads it:
transform receivers are rebuilt fresh on every call, the sink coroutine is
shared across calls.  A `send` into an already closed coroutine raises
`StopIteration`; a second `close` on it is a no-op.  `executeOnce` runs
one `__call__` of a stage chain against a sink whose closed flag persists
between calls: it raises exactly when some item reaches the closed sink,
and otherwise reports the items the sink appended and its closed flag
after the call. -/
def executeOnce (ts : List (Stage α)) (sinkClosed : Bool) (xs : List α) :
    Except Unit (List α × Bool) :=
  let r := runPipeline ts xs
  if sinkClosed && !r.1.isEmpty then Except.error ()
  else Except.ok (r.1, sinkClosed || r.2)

/-! ## Pure sequence semantics (from the spec, for the refinement claims) -/

/-- Modelled from the spec (§8): the pure-functional equivalent of a
stateless stage — map, flattened map, filter, filter-of-falsy.  The
`sort` case is not a stateless stage and is never reached under the
hypotheses that use this function. -/
def Stage.pureSem : Stage α → List α → List α
  | .map func => fun xs => xs.map func
  | .flatMap func => fun xs => (xs.map func).flatten
  | .filter func => fun xs => xs.filter func
  | .filterFalse func => fun xs => xs.filter fun a => !(func a)
  | .sort _ => fun xs => xs

/-- The pure-functional composition of a chain, first stage applied
first. -/
def pureChain (ts : List (Stage α)) (xs : List α) : List α :=
  ts.foldl (fun acc t => t.pureSem acc) xs

/-- The common shape of the four stateless transforms: unit state, a fixed
per-item emission, no `GeneratorExit` handler. -/
def statelessRecv (em : α → List β) : Recv α β Unit where
  init := ()
  push := fun _ a => ((), em a)
  close := fun _ => ([], false)

/-! ## Generic receiver lemmas -/

theorem Recv.pushAll_nil (r : Recv α β σ) (s : σ) : r.pushAll s [] = (s, []) := rfl

theorem Recv.pushAll_cons (r : Recv α β σ) (s : σ) (a : α) (rest : List α) :
    r.pushAll s (a :: rest) =
      ((r.pushAll (r.push s a).1 rest).1,
        (r.push s a).2 ++ (r.pushAll (r.push s a).1 rest).2) := rfl

theorem Recv.comp_push (r1 : Recv α β σ₁) (r2 : Recv β γ σ₂) (s : σ₁ × σ₂) (a : α) :
    (r1.comp r2).push s a =
      (((r1.push s.1 a).1, (r2.pushAll s.2 (r1.push s.1 a).2).1),
        (r2.pushAll s.2 (r1.push s.1 a).2).2) := rfl

theorem Recv.comp_close (r1 : Recv α β σ₁) (r2 : Recv β γ σ₂) (s : σ₁ × σ₂) :
    (r1.comp r2).close s =
      if (r1.close s.1).2 then
        ((r2.pushAll s.2 (r1.close s.1).1).2 ++
            (r2.close (r2.pushAll s.2 (r1.close s.1).1).1).1,
          (r2.close (r2.pushAll s.2 (r1.close s.1).1).1).2)
      else ((r2.pushAll s.2 (r1.close s.1).1).2, false) := rfl

theorem Recv.pushAll_append (r : Recv α β σ) (xs ys : List α) :
    ∀ s, r.pushAll s (xs ++ ys) =
      ((r.pushAll (r.pushAll s xs).1 ys).1,
        (r.pushAll s xs).2 ++ (r.pushAll (r.pushAll s xs).1 ys).2) := by
  induction xs with
  | nil => intro s; simp [Recv.pushAll_nil]
  | cons a rest ih =>
    intro s
    rw [List.cons_append, Recv.pushAll_cons, ih, Recv.pushAll_cons]
    simp [List.append_assoc]

theorem Recv.comp_pushAll (r1 : Recv α β σ₁) (r2 : Recv β γ σ₂) (xs : List α) :
    ∀ s1 s2, (r1.comp r2).pushAll (s1, s2) xs =
      (((r1.pushAll s1 xs).1, (r2.pushAll s2 (r1.pushAll s1 xs).2).1),
        (r2.pushAll s2 (r1.pushAll s1 xs).2).2) := by
  induction xs with
  | nil => intro s1 s2; simp [Recv.pushAll_nil]
  | cons a rest ih =>
    intro s1 s2
    rw [Recv.pushAll_cons, Recv.comp_push]
    rw [ih, Recv.pushAll_cons, Recv.pushAll_append]

/-! ## Stateless stages -/

theorem statelessRecv_pushAll (em : α → List β) (xs : List α) :
    ∀ s, (statelessRecv em).pushAll s xs = ((), (xs.map em).flatten) := by
  induction xs with
  | nil => intro s; rfl
  | cons a rest ih =>
    intro s
    rw [Recv.pushAll_cons, ih]
    simp [statelessRecv]

theorem flatten_map_singleton (func : α → β) (xs : List α) :
    (xs.map fun a => [func a]).flatten = xs.map func := by
  induction xs with
  | nil => rfl
  | cons a rest ih => simp [ih]

theorem flatten_map_ite_filter (p : α → Bool) (xs : List α) :
    (xs.map fun a => if p a then [a] else []).flatten = xs.filter p := by
  induction xs with
  | nil => rfl
  | cons a rest ih =>
    by_cases h : p a <;> simp [List.filter, h, ih]

theorem flatten_map_ite_filterFalse (p : α → Bool) (xs : List α) :
    (xs.map fun a => if p a then [] else [a]).flatten = xs.filter fun a => !(p a) := by
  induction xs with
  | nil => rfl
  | cons a rest ih =>
    by_cases h : p a <;> simp [List.filter, h, ih]

/-! ## Chain lemmas -/

theorem pipelineRecv_nil : pipelineRecv ([] : List (Stage α)) = ⟨Unit, sinkBoundary⟩ := rfl

theorem pipelineRecv_cons (t : Stage α) (ts : List (Stage α)) :
    pipelineRecv (t :: ts) = SomeRecv.comp t.toRecv (pipelineRecv ts) := rfl

theorem sinkBoundary_pushAll (xs : List α) :
    ∀ s, (sinkBoundary (α := α)).pushAll s xs = ((), xs) := by
  induction xs with
  | nil => intro s; rfl
  | cons a rest ih =>
    intro s
    rw [Recv.pushAll_cons, ih]
    rfl

/-- The close issued on the head reaches the sink exactly when every stage
of the chain, once closed, closes its own downstream. -/
theorem pipelineRecv_close_snd (ts : List (Stage α)) :
    ∀ s, ((pipelineRecv ts).r.close s).2 = ts.all Stage.closesDownstream := by
  induction ts with
  | nil => intro s; rfl
  | cons t ts ih =>
    intro s
    cases t with
    | map func =>
      simp [pipelineRecv_cons, SomeRecv.comp, Stage.toRecv, Recv.comp_close,
        Map.call, Stage.closesDownstream]
    | flatMap func =>
      simp [pipelineRecv_cons, SomeRecv.comp, Stage.toRecv, Recv.comp_close,
        FlatMap.call, Stage.closesDownstream]
    | filter func =>
      simp [pipelineRecv_cons, SomeRecv.comp, Stage.toRecv, Recv.comp_close,
        Filter.call, Stage.closesDownstream]
    | filterFalse func =>
      simp [pipelineRecv_cons, SomeRecv.comp, Stage.toRecv, Recv.comp_close,
        FilterFalse.call, Stage.closesDownstream]
    | sort le =>
      simp [pipelineRecv_cons, SomeRecv.comp, Stage.toRecv, Recv.comp_close,
        SortStage.call, Stage.closesDownstream, ih]

theorem runPipeline_snd (ts : List (Stage α)) (xs : List α) :
    (runPipeline ts xs).2 = ts.all Stage.closesDownstream := by
  simp [runPipeline, Recv.run, pipelineRecv_close_snd]

/-- A chain headed by a stateless stage flushes nothing on close: the
`GeneratorExit` terminates the head coroutine without propagating. -/
theorem pipelineRecv_close_fst_nil (ts : List (Stage α))
    (h : ts.all Stage.stateless = true) :
    ∀ s, ((pipelineRecv ts).r.close s).1 = [] := by
  cases ts with
  | nil => intro s; rfl
  | cons t ts =>
    have h1 : t.stateless = true := by
      simp [List.all_cons, Bool.and_eq_true] at h
      exact h.1
    intro s
    cases t with
    | map func =>
      simp [pipelineRecv_cons, SomeRecv.comp, Stage.toRecv, Recv.comp_close,
        Map.call, Recv.pushAll_nil]
    | flatMap func =>
      simp [pipelineRecv_cons, SomeRecv.comp, Stage.toRecv, Recv.comp_close,
        FlatMap.call, Recv.pushAll_nil]
    | filter func =>
      simp [pipelineRecv_cons, SomeRecv.comp, Stage.toRecv, Recv.comp_close,
        Filter.call, Recv.pushAll_nil]
    | filterFalse func =>
      simp [pipelineRecv_cons, SomeRecv.comp, Stage.toRecv, Recv.comp_close,
        FilterFalse.call, Recv.pushAll_nil]
    | sort le => simp [Stage.stateless] at h1

theorem runPipeline_fst_eq_pushAll (ts : List (Stage α))
    (h : ts.all Stage.stateless = true) (xs : List α) :
    (runPipeline ts xs).1 =
      ((pipelineRecv ts).r.pushAll (pipelineRecv ts).r.init xs).2 := by
  simp [runPipeline, Recv.run, pipelineRecv_close_fst_nil ts h]

theorem run_comp_stateless_fst (em : α → List α) (c : SomeRecv α) (xs : List α) :
    ((Recv.comp (statelessRecv em) c.r).run xs).1 =
      (c.r.pushAll c.r.init ((xs.map em).flatten)).2 := by
  have hinit : (Recv.comp (statelessRecv em) c.r).init = ((), c.r.init) := rfl
  simp only [Recv.run, hinit, Recv.comp_pushAll, statelessRecv_pushAll]
  simp [Recv.comp_close, statelessRecv, Recv.pushAll_nil]

/-! ## Sort -/

theorem SortStage.pushAll_eq (le : α → α → Bool) (xs : List α) :
    ∀ s, (SortStage.call le).pushAll s xs = (s ++ xs, []) := by
  induction xs with
  | nil => intro s; simp [Recv.pushAll_nil]
  | cons a rest ih =>
    intro s
    rw [Recv.pushAll_cons]
    rw [show (SortStage.call le).push s a = (s ++ [a], []) from rfl]
    rw [ih]
    simp

/-! ## ReduceByKey -/

theorem seenStep_nodup [DecidableEq κ] (acc : List κ) (kv : κ × ν) (h : acc.Nodup) :
    (seenStep acc kv).Nodup := by
  by_cases hm : kv.1 ∈ acc
  · simpa [seenStep, hm] using h
  · simp [seenStep, hm, List.nodup_append, h]

theorem foldl_seenStep_nodup [DecidableEq κ] (xs : List (κ × ν)) :
    ∀ acc : List κ, acc.Nodup → (xs.foldl seenStep acc).Nodup := by
  induction xs with
  | nil => intro acc h; exact h
  | cons kv rest ih =>
    intro acc h
    exact ih (seenStep acc kv) (seenStep_nodup acc kv h)

theorem firstSeen_nodup [DecidableEq κ] (xs : List (κ × ν)) : (firstSeen xs).Nodup :=
  foldl_seenStep_nodup xs [] List.nodup_nil

theorem mem_seenStep [DecidableEq κ] (acc : List κ) (kv : κ × ν) (j : κ) :
    j ∈ seenStep acc kv ↔ j ∈ acc ∨ j = kv.1 := by
  by_cases hm : kv.1 ∈ acc
  · simp only [seenStep, if_pos hm]
    constructor
    · exact fun hj => Or.inl hj
    · rintro (hj | hj)
      · exact hj
      · exact hj ▸ hm
  · simp [seenStep, hm]

theorem mem_foldl_seenStep [DecidableEq κ] (xs : List (κ × ν)) (j : κ) :
    ∀ acc : List κ, (j ∈ xs.foldl seenStep acc ↔ j ∈ acc ∨ j ∈ xs.map Prod.fst) := by
  induction xs with
  | nil => intro acc; simp
  | cons kv rest ih =>
    intro acc
    rw [List.foldl_cons, ih (seenStep acc kv), mem_seenStep]
    simp [or_assoc]

theorem mem_firstSeen [DecidableEq κ] (xs : List (κ × ν)) (j : κ) :
    j ∈ firstSeen xs ↔ j ∈ xs.map Prod.fst := by
  rw [firstSeen, mem_foldl_seenStep]
  simp

theorem firstSeen_append_single [DecidableEq κ] (xs : List (κ × ν)) (kv : κ × ν) :
    firstSeen (xs ++ [kv]) = seenStep (firstSeen xs) kv := by
  simp [firstSeen, List.foldl_append]

theorem valuesOf_append_single [DecidableEq κ] (key : κ) (xs : List (κ × ν)) (kv : κ × ν) :
    valuesOf key (xs ++ [kv]) =
      if kv.1 = key then valuesOf key xs ++ [kv.2] else valuesOf key xs := by
  by_cases h : kv.1 = key <;> simp [valuesOf, List.filter_append, h]

theorem valuesOf_nil_of_not_mem [DecidableEq κ] (key : κ) :
    ∀ xs : List (κ × ν), key ∉ xs.map Prod.fst → valuesOf key xs = [] := by
  intro xs
  induction xs with
  | nil => intro h; rfl
  | cons kv rest ih =>
    intro h
    have h1 : ¬(kv.1 = key) := fun he => h (by simp [he])
    have h2 : key ∉ rest.map Prod.fst := fun hm => h (by simp [hm])
    have hr := ih h2
    simp only [valuesOf, List.filter_cons] at hr ⊢
    rw [if_neg]
    · exact hr
    · simp [h1]

theorem leftFold_ne_none_of_mem [DecidableEq κ] (func : κ → ν → ν → ν) (key : κ)
    (xs : List (κ × ν)) (h : key ∈ xs.map Prod.fst) :
    ∃ a, leftFold func key (valuesOf key xs) = some a := by
  rcases hv : valuesOf key xs with _ | ⟨v, rest⟩
  · rcases List.mem_map.mp h with ⟨kv, hkv, hfst⟩
    have : kv.2 ∈ valuesOf key xs := by
      apply List.mem_map.mpr
      refine ⟨kv, ?_, rfl⟩
      simp [List.mem_filter, hkv, hfst]
    rw [hv] at this
    simp at this
  · exact ⟨rest.foldl (func key) v, by simp [leftFold]⟩

theorem leftFold_append (func : κ → ν → ν → ν) (key : κ) (vs : List ν) (v : ν) :
    leftFold func key (vs ++ [v]) =
      some (match leftFold func key vs with
            | none => v
            | some a => func key a v) := by
  cases vs with
  | nil => rfl
  | cons w rest => simp [leftFold, List.foldl_append]

theorem ReduceByKey.find_map [DecidableEq κ] (key : κ) (ks : List κ) (g : κ → Option ν) :
    ReduceByKey.find (ks.map fun k => (k, g k)) key =
      if key ∈ ks then some (g key) else none := by
  induction ks with
  | nil => rfl
  | cons k0 rest ih =>
    by_cases hk : k0 = key
    · subst hk
      simp [ReduceByKey.find]
    · simp [ReduceByKey.find, hk, ih, Ne.symm hk]

theorem ReduceByKey.store_map [DecidableEq κ] (key : κ) (ks : List κ) (g : κ → Option ν)
    (s : Option ν) (hnd : ks.Nodup) :
    ReduceByKey.store (ks.map fun k => (k, g k)) key s =
      ks.map fun k => (k, if k = key then s else g k) := by
  induction ks with
  | nil => rfl
  | cons k0 rest ih =>
    have hnd2 : rest.Nodup := hnd.of_cons
    by_cases hk : k0 = key
    · subst hk
      have hout : k0 ∉ rest := (List.nodup_cons.mp hnd).1
      have hmap : rest.map (fun k => (k, g k)) =
          rest.map fun k => (k, if k = k0 then s else g k) := by
        apply List.map_congr_left
        intro k hkmem
        have hne : k ≠ k0 := fun he => hout (he ▸ hkmem)
        simp [hne]
      simp [ReduceByKey.store, ← hmap]
    · simp [ReduceByKey.store, hk, ih hnd2]

theorem ReduceByKey.call_push [DecidableEq κ] (func : κ → ν → ν → ν)
    (km : List (κ × Option ν)) (kv : κ × ν) :
    (ReduceByKey.call func).push km kv =
      match ReduceByKey.find km kv.1 with
      | some s => (ReduceByKey.store km kv.1 ((ReduceByKey.wrap kv.1 func).push s kv.2).1, [])
      | none =>
        (km ++
          [(kv.1, ((ReduceByKey.wrap kv.1 func).push (ReduceByKey.wrap kv.1 func).init kv.2).1)],
          []) := rfl

theorem rbk_pushAll_snd [DecidableEq κ] (func : κ → ν → ν → ν) (xs : List (κ × ν)) :
    ∀ km, ((ReduceByKey.call func).pushAll km xs).2 = [] := by
  induction xs with
  | nil => intro km; rfl
  | cons kv rest ih =>
    intro km
    rw [Recv.pushAll_cons, ReduceByKey.call_push]
    cases hfind : ReduceByKey.find km kv.1 <;> simp [hfind, ih]

theorem ReduceByKey.call_push_found [DecidableEq κ] (func : κ → ν → ν → ν)
    (km : List (κ × Option ν)) (kv : κ × ν) (s : Option ν)
    (h : ReduceByKey.find km kv.1 = some s) :
    (ReduceByKey.call func).push km kv =
      (ReduceByKey.store km kv.1 ((ReduceByKey.wrap kv.1 func).push s kv.2).1, []) := by
  rw [ReduceByKey.call_push, h]

theorem ReduceByKey.call_push_new [DecidableEq κ] (func : κ → ν → ν → ν)
    (km : List (κ × Option ν)) (kv : κ × ν)
    (h : ReduceByKey.find km kv.1 = none) :
    (ReduceByKey.call func).push km kv = (km ++ [(kv.1, some kv.2)], []) := by
  rw [ReduceByKey.call_push, h]
  rfl

theorem Recv.pushAll_state_append (r : Recv α β σ) (xs : List α) (a : α) (s : σ) :
    (r.pushAll s (xs ++ [a])).1 = (r.push (r.pushAll s xs).1 a).1 := by
  rw [Recv.pushAll_append]
  simp [Recv.pushAll_cons, Recv.pushAll_nil]

theorem rbk_pushAll_table [DecidableEq κ] (func : κ → ν → ν → ν) (xs : List (κ × ν)) :
    ((ReduceByKey.call func).pushAll [] xs).1 = rbkTable func xs := by
  induction xs using List.reverseRecOn with
  | nil => rfl
  | append_singleton xs kv ih =>
    rw [Recv.pushAll_state_append, ih]
    have hfind :
        ReduceByKey.find (rbkTable func xs) kv.1 =
          if kv.1 ∈ firstSeen xs then some (leftFold func kv.1 (valuesOf kv.1 xs))
          else none := by
      simp only [rbkTable]
      exact ReduceByKey.find_map kv.1 (firstSeen xs) _
    by_cases hm : kv.1 ∈ firstSeen xs
    · obtain ⟨a, ha⟩ :=
        leftFold_ne_none_of_mem func kv.1 xs ((mem_firstSeen xs kv.1).mp hm)
      rw [ReduceByKey.call_push_found func _ kv (some a)
        (by rw [hfind, if_pos hm, ha])]
      show ReduceByKey.store (rbkTable func xs) kv.1 (some (func kv.1 a kv.2)) =
        rbkTable func (xs ++ [kv])
      have hstore :
          ReduceByKey.store (rbkTable func xs) kv.1 (some (func kv.1 a kv.2)) =
            (firstSeen xs).map fun k =>
              (k, if k = kv.1 then some (func kv.1 a kv.2)
                  else leftFold func k (valuesOf k xs)) := by
        simp only [rbkTable]
        exact ReduceByKey.store_map kv.1 (firstSeen xs) _ _ (firstSeen_nodup xs)
      rw [hstore]
      have hks : firstSeen (xs ++ [kv]) = firstSeen xs := by
        rw [firstSeen_append_single]
        simp [seenStep, hm]
      simp only [rbkTable, hks]
      apply List.map_congr_left
      intro k hkmem
      by_cases hk : k = kv.1
      · subst hk
        rw [if_pos rfl, valuesOf_append_single, if_pos rfl, leftFold_append, ha]
      · have hne : ¬(kv.1 = k) := fun he => hk he.symm
        rw [if_neg hk, valuesOf_append_single, if_neg hne]
    · rw [ReduceByKey.call_push_new func _ kv (by rw [hfind, if_neg hm])]
      show rbkTable func xs ++ [(kv.1, some kv.2)] = rbkTable func (xs ++ [kv])
      have hks : firstSeen (xs ++ [kv]) = firstSeen xs ++ [kv.1] := by
        rw [firstSeen_append_single]
        simp [seenStep, hm]
      have hvnil : valuesOf kv.1 xs = [] :=
        valuesOf_nil_of_not_mem kv.1 xs fun hmm => hm ((mem_firstSeen xs kv.1).mpr hmm)
      simp only [rbkTable, hks, List.map_append, List.map_cons, List.map_nil]
      have hmap : ((firstSeen xs).map fun k => (k, leftFold func k (valuesOf k (xs ++ [kv])))) =
          (firstSeen xs).map fun k => (k, leftFold func k (valuesOf k xs)) := by
        apply List.map_congr_left
        intro k hkmem
        have hne : ¬(kv.1 = k) := fun he => hm (he ▸ hkmem)
        rw [valuesOf_append_single, if_neg hne]
      rw [hmap]
      rw [valuesOf_append_single, if_pos rfl, hvnil]
      rfl

theorem wrap_close_fst (key : κ) (func : κ → ν → ν → ν) (s : Option ν) :
    ((ReduceByKey.wrap key func).close s).1 = (s.map fun a => (key, a)).toList := by
  cases s <;> rfl

theorem flatten_map_toList (ls : List κ) (h : κ → Option (κ × ν)) :
    (ls.map fun k => (h k).toList).flatten = ls.filterMap h := by
  induction ls with
  | nil => rfl
  | cons k rest ih =>
    cases hk : h k <;> simp [List.filterMap_cons, hk, ih]

theorem ReduceByKey.call_close [DecidableEq κ] (func : κ → ν → ν → ν)
    (km : List (κ × Option ν)) :
    (ReduceByKey.call func).close km =
      ((km.reverse.map fun e => ((ReduceByKey.wrap e.1 func).close e.2).1).flatten, true) := rfl

/-- Running ReduceByKey over a finite stream: when the single close
arrives, the accumulators are closed in popitem order — the reverse of
first-seen key order — each flushing its `(key, fold)` pair, and the
dispatcher then closes the downstream. -/
theorem rbk_run [DecidableEq κ] (func : κ → ν → ν → ν) (xs : List (κ × ν)) :
    (ReduceByKey.call func).run xs =
      ((firstSeen xs).reverse.filterMap
          (fun k => (leftFold func k (valuesOf k xs)).map fun a => (k, a)), true) := by
  have hinit : (ReduceByKey.call func).init = ([] : List (κ × Option ν)) := rfl
  simp only [Recv.run, hinit, rbk_pushAll_snd, rbk_pushAll_table,
    ReduceByKey.call_close, List.nil_append]
  congr 1
  rw [show (rbkTable func xs).reverse =
      (firstSeen xs).reverse.map fun k => (k, leftFold func k (valuesOf k xs)) by
    rw [rbkTable, List.map_reverse]]
  rw [List.map_map]
  have hcongr : ((firstSeen xs).reverse.map
      ((fun e : κ × Option ν => ((ReduceByKey.wrap e.1 func).close e.2).1) ∘
        fun k => (k, leftFold func k (valuesOf k xs)))) =
      (firstSeen xs).reverse.map fun k =>
        (((leftFold func k (valuesOf k xs)).map fun a => (k, a)).toList) := by
    apply List.map_congr_left
    intro k _
    exact wrap_close_fst k func _
  rw [hcongr, flatten_map_toList]

theorem map_fst_filterMap_pair (ls : List κ) (h : κ → Option ν)
    (hs : ∀ k ∈ ls, (h k).isSome = true) :
    (ls.filterMap fun k => (h k).map fun a => (k, a)).map Prod.fst = ls := by
  induction ls with
  | nil => rfl
  | cons k rest ih =>
    have h1 := hs k (List.mem_cons_self k rest)
    cases hk : h k with
    | none => rw [hk] at h1; simp at h1
    | some a =>
      simp [List.filterMap_cons, hk,
        ih fun j hj => hs j (List.mem_cons_of_mem k hj)]

theorem rbk_run_keys [DecidableEq κ] (func : κ → ν → ν → ν) (xs : List (κ × ν)) :
    ((ReduceByKey.call func).run xs).1.map Prod.fst = (firstSeen xs).reverse := by
  rw [rbk_run]
  exact map_fst_filterMap_pair _ _ fun k hk => by
    obtain ⟨a, ha⟩ := leftFold_ne_none_of_mem func k xs
      ((mem_firstSeen xs k).mp (List.mem_reverse.mp hk))
    simp [ha]

/-! ## The full stateless-chain refinement -/

theorem stateless_chain_pure (ts : List (Stage α)) :
    ts.all Stage.stateless = true → ∀ xs : List α,
      (runPipeline ts xs).1 = pureChain ts xs := by
  induction ts with
  | nil =>
    intro _ xs
    simp only [runPipeline, pipelineRecv_nil, Recv.run, sinkBoundary_pushAll]
    simp [sinkBoundary, pureChain]
  | cons t ts ih =>
    intro h xs
    have h1 : t.stateless = true := by
      rw [List.all_cons, Bool.and_eq_true] at h
      exact h.1
    have h2 : ts.all Stage.stateless = true := by
      rw [List.all_cons, Bool.and_eq_true] at h
      exact h.2
    cases t with
    | sort le => simp [Stage.stateless] at h1
    | map func =>
      have e2 : (runPipeline (Stage.map func :: ts) xs).1 =
          ((pipelineRecv ts).r.pushAll (pipelineRecv ts).r.init
            ((xs.map fun a => [func a]).flatten)).2 :=
        run_comp_stateless_fst (fun a => [func a]) (pipelineRecv ts) xs
      rw [e2, ← runPipeline_fst_eq_pushAll ts h2, ih h2]
      simp [pureChain, Stage.pureSem, flatten_map_singleton]
    | flatMap func =>
      have e2 : (runPipeline (Stage.flatMap func :: ts) xs).1 =
          ((pipelineRecv ts).r.pushAll (pipelineRecv ts).r.init
            ((xs.map func).flatten)).2 :=
        run_comp_stateless_fst func (pipelineRecv ts) xs
      rw [e2, ← runPipeline_fst_eq_pushAll ts h2, ih h2]
      simp [pureChain, Stage.pureSem]
    | filter func =>
      have e2 : (runPipeline (Stage.filter func :: ts) xs).1 =
          ((pipelineRecv ts).r.pushAll (pipelineRecv ts).r.init
            ((xs.map fun a => if func a then [a] else []).flatten)).2 :=
        run_comp_stateless_fst (fun a => if func a then [a] else []) (pipelineRecv ts) xs
      rw [e2, ← runPipeline_fst_eq_pushAll ts h2, ih h2]
      simp [pureChain, Stage.pureSem, flatten_map_ite_filter]
    | filterFalse func =>
      have e2 : (runPipeline (Stage.filterFalse func :: ts) xs).1 =
          ((pipelineRecv ts).r.pushAll (pipelineRecv ts).r.init
            ((xs.map fun a => if func a then [] else [a]).flatten)).2 :=
        run_comp_stateless_fst (fun a => if func a then [] else [a]) (pipelineRecv ts) xs
      rw [e2, ← runPipeline_fst_eq_pushAll ts h2, ih h2]
      simp [pureChain, Stage.pureSem, flatten_map_ite_filterFalse]

/-! ## The claims -/

/-- Claim C1, counterexample: `ReduceByKey(add)` on
`[("a",1),("b",1),("a",1)]` does not yield `[("a",2),("b",1)]` — the
`popitem` loop closes the accumulators last-inserted-first, so the
collected output is `[("b",1),("a",2)]`. -/
theorem rbk_scenario_not_first_seen_order :
    ((ReduceByKey.call fun (_ : String) (a b : Nat) => a + b).run
        [("a", 1), ("b", 1), ("a", 1)]).1 = [("b", 1), ("a", 2)]
    ∧ ((ReduceByKey.call fun (_ : String) (a b : Nat) => a + b).run
        [("a", 1), ("b", 1), ("a", 1)]).1 ≠ [("a", 2), ("b", 1)] := by
  constructor
  · rfl
  · decide

/-- Claim C1, amended: when the ReduceByKey receiver is closed it closes
its live accumulators in reverse first-seen key order (`popitem` pops the
most recently inserted entry), so the items emitted downstream during
shutdown carry the distinct keys in reverse first-seen order. -/
theorem rbk_shutdown_emits_reverse_first_seen_order [DecidableEq κ]
    (func : κ → ν → ν → ν) (xs : List (κ × ν)) :
    ((ReduceByKey.call func).run xs).1.map Prod.fst = (firstSeen xs).reverse :=
  rbk_run_keys func xs

/-- Claim C2, counterexample: in the execution of `ReduceByKey(add)` on
`[("a",1)]` the dispatcher does close the shared downstream receiver
(`target.close()` at the end of its `GeneratorExit` handler), refuting
that the ReduceByKey stage never closes it. -/
theorem rbk_dispatcher_closes_downstream_concrete :
    ((ReduceByKey.call fun (_ : String) (a b : Nat) => a + b).run
        [("a", 1)]).2 = true := by decide

/-- Claim C2, amended: each per-key accumulator flushes its final
`(key, accumulated)` pair without closing the shared downstream, but the
ReduceByKey dispatcher itself, after closing every accumulator, does
close the shared downstream exactly once as its part of the close
cascade. -/
theorem rbk_accumulators_flush_dispatcher_closes [DecidableEq κ]
    (func : κ → ν → ν → ν) (xs : List (κ × ν)) :
    (∀ (key : κ) (s : Option ν), ((ReduceByKey.wrap key func).close s).2 = false)
    ∧ ((ReduceByKey.call func).run xs).2 = true := by
  constructor
  · intro key s
    cases s <;> rfl
  · rw [rbk_run]

/-- Claim C3, counterexample: a chain holding the single stage `Map(id)`
never closes the sink — `Map` has no `GeneratorExit` handler, so the one
close issued by `execute` terminates the `Map` coroutine without
propagating, and `execute` returns with the sink still open. -/
theorem map_chain_leaves_sink_unclosed :
    (runPipeline [Stage.map fun n : Nat => n] [0]).2 = false := by decide

/-- Claim C3, amended: `execute` issues exactly one close to the head
receiver, but that close propagates through a stage only when the stage
has a `GeneratorExit` handler that closes its downstream (`Sort` does,
and so does `ReduceByKey`; `Map`/`FlatMap`/`Filter`/`FilterFalse` do
not), so the sink is closed by the time `execute` returns exactly when
the chain is empty or every stage in it propagates the close. -/
theorem single_close_reaches_sink_iff_all_stages_propagate
    (ts : List (Stage α)) (xs : List α) :
    (runPipeline ts xs).2 = ts.all Stage.closesDownstream :=
  runPipeline_snd ts xs

/-- Claim C4: for every finite stream of pairs fed into
`ReduceByKey(combine)` and then closed, the downstream receives exactly
one `(key, result)` pair per distinct key of the input — no key repeats —
and the result for a key is the left fold of `combine` over that key's
values in arrival order (the first value taken verbatim). -/
theorem rbk_one_left_fold_per_distinct_key [DecidableEq κ]
    (func : κ → ν → ν → ν) (xs : List (κ × ν)) :
    ((((ReduceByKey.call func).run xs).1.map Prod.fst).Nodup)
    ∧ (∀ key : κ, key ∈ ((ReduceByKey.call func).run xs).1.map Prod.fst ↔
        key ∈ xs.map Prod.fst)
    ∧ ∀ p ∈ ((ReduceByKey.call func).run xs).1,
        leftFold func p.1 (valuesOf p.1 xs) = some p.2 := by
  refine ⟨?_, ?_, ?_⟩
  · rw [rbk_run_keys]
    exact List.nodup_reverse.mpr (firstSeen_nodup xs)
  · intro key
    rw [rbk_run_keys, List.mem_reverse, mem_firstSeen]
  · intro p hp
    rw [rbk_run] at hp
    obtain ⟨k, _, heq⟩ := List.mem_filterMap.mp hp
    cases hl : leftFold func k (valuesOf k xs) with
    | none => rw [hl] at heq; simp at heq
    | some a =>
      rw [hl] at heq
      simp only [Option.map_some'] at heq
      obtain rfl := Option.some.inj heq
      simpa using hl

/-- Claim C5: `Sample(1,5,2)` driven with `[10,20,30,40,50]` does not
produce `[20,40]`: the receiver draws `next(matches)` for every incoming
item instead of holding the current target index, so the two-element
range `[1,3]` is exhausted after two items and the third `send` raises
out of `execute`, while the docstring ("Like `list[start:stop:step]`")
and the spec prescribe `[20,40]`. -/
theorem sample_scenario_raises_instead_of_slicing :
    Sample.run 1 5 2 ([10, 20, 30, 40, 50] : List Nat) = Except.error ()
    ∧ sliceSpec 1 5 2 ([10, 20, 30, 40, 50] : List Nat) = [20, 40] := by
  constructor
  · rfl
  · decide

/-- Claim C6: a chain built only from the stateless stages Map, FlatMap,
Filter and FilterFalse delivers to the sink exactly the pure-functional
composition — map, flattened map, filter, filter-of-falsy — of the input
sequence, in original order. -/
theorem stateless_chain_equals_pure_composition (ts : List (Stage α))
    (h : ts.all Stage.stateless = true) (xs : List α) :
    (runPipeline ts xs).1 = pureChain ts xs :=
  stateless_chain_pure ts h xs

/-- Witness for C6, the spec scenario: `[Filter(truthy), Map(x -> x*2)]`
on `[0,1,2,none,4]` collects `[2,4,8]`. -/
theorem stateless_chain_equals_pure_composition_witness :
    ([Stage.filter (fun o => match o with | none => false | some n => !(n == 0)),
        Stage.map fun o : Option Nat => o.map fun n => n * 2].all Stage.stateless = true)
    ∧ (runPipeline
        [Stage.filter (fun o => match o with | none => false | some n => !(n == 0)),
          Stage.map fun o : Option Nat => o.map fun n => n * 2]
        [some 0, some 1, some 2, none, some 4]).1 =
      pureChain
        [Stage.filter (fun o => match o with | none => false | some n => !(n == 0)),
          Stage.map fun o : Option Nat => o.map fun n => n * 2]
        [some 0, some 1, some 2, none, some 4]
    ∧ pureChain
        [Stage.filter (fun o => match o with | none => false | some n => !(n == 0)),
          Stage.map fun o : Option Nat => o.map fun n => n * 2]
        [some 0, some 1, some 2, none, some 4] = [some 2, some 4, some 8] :=
  ⟨by decide, stateless_chain_equals_pure_composition _ (by decide) _, by decide⟩

/-- Claim C7: a Sort receiver forwards nothing downstream before it is
closed; on close it pushes exactly `sorted(S, key, reverse)` — embedded
as a stable merge sort under the induced comparison — and then closes its
downstream exactly once. -/
theorem sort_forwards_nothing_then_flushes_sorted (le : α → α → Bool) (xs : List α) :
    ((SortStage.call le).pushAll (SortStage.call le).init xs).2 = []
    ∧ (SortStage.call le).run xs = (xs.mergeSort le, true) := by
  have h0 : (SortStage.call le).init = ([] : List α) := rfl
  constructor
  · rw [SortStage.pushAll_eq]
  · simp only [Recv.run, SortStage.pushAll_eq, h0]
    simp [SortStage.call]

/-- Claim C8: `append` (the `__or__` of the chain) raises the
invalid-stage error and leaves the transform list untouched when handed
an object that is not a `CoroTransform`, and appends the object and
returns the chain when it is one. -/
theorem append_rejects_non_transform_accepts_transform
    (p : CoroPipeline α) (other : CoroObj α) :
    (other.isCoroTransform = false →
      p.orOp other = (p, some CoroErr.notACoroTransform))
    ∧ (other.isCoroTransform = true →
      p.orOp other = (⟨p.transforms ++ [other]⟩, none)) := by
  constructor
  · intro h
    simp [CoroPipeline.orOp, h]
  · intro h
    simp [CoroPipeline.orOp, h]

/-- Witness for C8: a non-transform object is rejected with the chain
unchanged; a Map transform is appended. -/
theorem append_rejects_non_transform_accepts_transform_witness :
    ((⟨[]⟩ : CoroPipeline Nat).orOp (CoroObj.notTransform 0) =
      (⟨[]⟩, some CoroErr.notACoroTransform))
    ∧ ((⟨[]⟩ : CoroPipeline Nat).orOp (CoroObj.transform (Stage.map fun n => n + 1)) =
      (⟨[CoroObj.transform (Stage.map fun n => n + 1)]⟩, none)) :=
  ⟨(append_rejects_non_transform_accepts_transform ⟨[]⟩ (CoroObj.notTransform 0)).1 rfl,
    (append_rejects_non_transform_accepts_transform ⟨[]⟩
      (CoroObj.transform (Stage.map fun n => n + 1))).2 rfl⟩

/-- Claim C9, counterexample: on a chain with no transforms the first
`execute([1])` pushes `1` to the sink and closes it; a second
`execute([1])` on the same chain object sends into the already closed
sink coroutine and raises, so re-running is not idempotent. -/
theorem second_execute_fails_after_sink_closed :
    executeOnce ([] : List (Stage Nat)) false [1] = Except.ok ([1], true)
    ∧ executeOnce ([] : List (Stage Nat)) true [1] = Except.error () :=
  ⟨rfl, rfl⟩

/-- Claim C9, amended: the transform receivers are rebuilt fresh on every
call but the sink coroutine is created once and shared, so two successive
`execute` calls on one chain both succeed with identical sink output
exactly in the case that the first call leaves the sink open — that is,
when not every stage propagates the close. -/
theorem rerun_execute_identical_when_sink_left_open
    (ts : List (Stage α)) (xs : List α)
    (h : ts.all Stage.closesDownstream = false) :
    ∃ out : List α, ∃ sc : Bool,
      executeOnce ts false xs = Except.ok (out, sc)
      ∧ executeOnce ts sc xs = Except.ok (out, sc) := by
  refine ⟨(runPipeline ts xs).1, false, ?_, ?_⟩ <;>
    simp [executeOnce, runPipeline_snd, h]

/-- Witness for the amended C9: a `Map` chain re-runs with identical
output. -/
theorem rerun_execute_identical_when_sink_left_open_witness :
    ([Stage.map fun n : Nat => n + 1].all Stage.closesDownstream = false)
    ∧ ∃ out : List Nat, ∃ sc : Bool,
        executeOnce [Stage.map fun n : Nat => n + 1] false [1, 2] = Except.ok (out, sc)
        ∧ executeOnce [Stage.map fun n : Nat => n + 1] sc [1, 2] = Except.ok (out, sc) :=
  ⟨rfl, rerun_execute_identical_when_sink_left_open _ _ rfl⟩

/-- Claim C10: a bare `CoroTransform()` instance passes the isinstance
check of `append` and is appended without error; the
`NotImplementedError` surfaces only when `execute` builds the composed
receiver and invokes the bare instance directly — before any stream item
is consumed. -/
theorem bare_transform_accepted_fails_only_at_execute
    (p : CoroPipeline α) (xs : List α) :
    p.orOp CoroObj.bareTransform = (⟨p.transforms ++ [CoroObj.bareTransform]⟩, none)
    ∧ CoroPipeline.execute ⟨p.transforms ++ [CoroObj.bareTransform]⟩ xs =
        Except.error CoroErr.notImplementedErr := by
  constructor
  · rfl
  · have hb : ∀ ts : List (CoroObj α),
        buildChain (ts ++ [CoroObj.bareTransform]) =
          Except.error CoroErr.notImplementedErr := by
      intro ts
      induction ts with
      | nil => rfl
      | cons t rest ih => simp [buildChain, ih]
    simp [CoroPipeline.execute, hb]

end Tinyflow
